import Mathlib

/-!
# Verification of the blockmatrix package

A shallow embedding of the Go `blockmatrix` package: an append-mostly,
tamper-evident block matrix stored in a key-value database.  The embedding
follows the source files (`blockmatrix.go` and its companion revision that
adds `EraseBlock` / `checkValidErase` / `IsValid`, plus `block.go` with
`NewBlock` / `EmptyBlock`).

Modelling conventions:

* Byte strings are `List Nat` (Go `[]byte`; a Go `string` is a byte string).
* SHA-256 is modelled symbolically: `HBytes` is a free algebra of byte
  strings with a `cat` (concatenation as performed by `hash.Write`) and a
  `sha` constructor.  Constructor injectivity models collision-freeness of
  the hash and unambiguity of concatenation; everything stays executable
  and decidable.
* The LevelDB store is modelled by three association lists, one per key
  namespace the code uses: the fixed `"info"` record, decimal block-number
  keys (represented by the decoded `Nat`, since `fmt.Sprint`/`strconv.Itoa`
  put them in bijection with their decimal strings), and caller keys.
  Caller keys are assumed disjoint from the reserved namespaces, which is
  the well-formed usage the specification describes.
* Go `int` values that stay non-negative in every reachable state
  (sizes, block counts, block numbers ≥ 1) are modelled as `Nat`.
  `math.Floor(math.Sqrt(float64 n))` is modelled as `Nat.sqrt n`, its
  exact value for the integer ranges in play.
* I/O never fails in the model (the backing store is perfect); the
  remaining failure modes (`leveldb: not found`, `strconv.Atoi` failure,
  the invalid-erase check, the `IsValid` mismatch reports) are the `BmErr`
  error type.
-/

/-- Symbolic byte strings: literal bytes, concatenation (`hash.Write`
accumulation) and SHA-256.  Free constructors model a collision-free hash. -/
inductive HBytes where
  | lit : List Nat → HBytes
  | cat : HBytes → HBytes → HBytes
  | sha : HBytes → HBytes
deriving DecidableEq, Repr

/-- `h := sha256.New(); h.Write c₁; ...; h.Write cₖ; h.Sum(nil)` :
SHA-256 of the concatenation of the written chunks. -/
def shaSum (chunks : List HBytes) : HBytes :=
  .sha (chunks.foldl .cat (.lit []))

/-- `block.go` `calculateHash`: SHA-256 of a raw data payload. -/
def calculateHash (data : List Nat) : HBytes := shaSum [.lit data]

/-- `block.go` `Block`: raw data plus its stored content hash. -/
structure Block where
  data : List Nat
  hash : HBytes
deriving DecidableEq, Repr

/-- `block.go` `NewBlock`. -/
def NewBlock (data : List Nat) : Block := ⟨data, calculateHash data⟩

/-- `block.go` `EmptyBlock`: the redaction sentinel, payload `[0]` with its
precomputed digest. -/
def EmptyBlock : Block := ⟨[0], calculateHash [0]⟩

/-- `BlockMatrixInfo`: the persisted `"info"` record. -/
structure BlockMatrixInfo where
  size : Nat
  blockCount : Nat
  rows : List HBytes
  cols : List HBytes
deriving DecidableEq, Repr

/-- Association-list lookup (models `db.Get` inside one key namespace). -/
def aget {κ α : Type} [DecidableEq κ] (k : κ) : List (κ × α) → Option α
  | [] => none
  | (k', v) :: t => if k' = k then some v else aget k t

/-- Association-list store (models `db.Put`; newest binding shadows). -/
def aput {κ α : Type} (k : κ) (v : α) (l : List (κ × α)) : List (κ × α) := (k, v) :: l

/-- Association-list delete (models `db.Delete`). -/
def adel {κ α : Type} [DecidableEq κ] (k : κ) (l : List (κ × α)) : List (κ × α) :=
  l.filter (fun p => decide (p.1 ≠ k))

/-- The LevelDB database, split into the three key namespaces the code uses. -/
structure DB where
  info : Option BlockMatrixInfo
  blocks : List (Nat × Block)
  keyIndex : List (List Nat × List Nat)
deriving DecidableEq, Repr

/-- Fuel-driven helper for `natDigits` (fuel keeps it structurally
recursive, hence kernel-computable). -/
def digitsAux : Nat → Nat → List Nat
  | 0, _ => []
  | fuel+1, n => if n < 10 then [48 + n] else digitsAux fuel (n / 10) ++ [48 + n % 10]

/-- ASCII decimal encoding of a natural number, i.e. the bytes of
`strconv.Itoa n` / `fmt.Sprint n`. -/
def natDigits (n : Nat) : List Nat := digitsAux (n + 1) n

/-- Decode an ASCII decimal byte string back to its number (used to model a
raw `db.Get` whose key is a stored block-number byte string). -/
def decodeDecimal (bs : List Nat) : Option Nat :=
  if bs = [] then none
  else if bs.all (fun b => 48 ≤ b && b ≤ 57) then
    some (bs.foldl (fun acc b => acc * 10 + (b - 48)) 0)
  else none

/-- The error outcomes of the modelled operations. -/
inductive BmErr where
  | notFound
  | atoiError
  | invalidErase
  | blockHashMismatch (i : Nat)
  | rowHashMismatch (i : Nat)
  | colHashMismatch (i : Nat)
deriving DecidableEq, Repr

deriving instance DecidableEq for Except

/-- `initInfo`: the `"info"` record written by `New` on empty storage:
size 1, block count 0, one `nil` digest per axis. -/
def initInfo : BlockMatrixInfo := ⟨1, 0, [.lit []], [.lit []]⟩

/-- The database right after `New` ran `initInfo` on empty backing storage. -/
def initDB : DB := ⟨some initInfo, [], []⟩

/-- A default database value (used only to extract concrete run results). -/
def dbDefault : DB := ⟨none, [], []⟩

/-- The integer square root `⌊√n⌋`, the value of
`int(math.Floor(math.Sqrt(float64 n)))`.  Structurally recursive so that the
kernel can evaluate it; `isqrt_eq_sqrt` below identifies it with
`Nat.sqrt`. -/
def isqrt : Nat → Nat
  | 0 => 0
  | n + 1 =>
    let r := isqrt n
    if (r + 1) * (r + 1) ≤ n + 1 then r + 1 else r

/-- `ceil(sqrt n)` over the integers, the value of
`int(math.Ceil(math.Sqrt(float64 n)))`. -/
def ceilSqrt (n : Nat) : Nat :=
  if isqrt n * isqrt n = n then isqrt n else isqrt n + 1

/-- `Size blockCount`: square root of the block count rounded up, bumped by
one when `size² - size` still falls short of the block count. -/
def Size (blockCount : Nat) : Nat :=
  let size := ceilSqrt blockCount
  if size * size - size < blockCount then size + 1 else size

/-- `locateBlock`: row and column of the block with the given (1-based)
block number.  Go's `int` subtractions never underflow for block
numbers ≥ 1, so `Nat` subtraction is faithful there. -/
def locateBlock (blockNum : Nat) : Nat × Nat :=
  let i :=
    if blockNum % 2 = 0 then
      let s := isqrt blockNum
      if blockNum ≤ s * s + s then s else s + 1
    else
      let s := isqrt (blockNum + 1)
      let col := if blockNum < s * s + s then s else s + 1
      (blockNum - (col * col - col + 1)) / 2
  let j :=
    if blockNum % 2 = 0 then
      let s := isqrt blockNum
      let row := if blockNum ≤ s * s + s then s else s + 1
      (blockNum - (row * row - row + 2)) / 2
    else
      let s := isqrt (blockNum + 1)
      if blockNum < s * s + s then s else s + 1
  (i, j)

/-- `rowBlockNumbers rowIndex blockCount`: block numbers of the row, blocks
under the diagonal (`add` starts at 2 and grows by 2 per column) followed by
blocks above it (`sub` starts at 1 and grows by 2 per column). -/
def rowBlockNumbers (rowIndex bc : Nat) : List Nat :=
  let below := (List.range rowIndex).map (fun col => rowIndex * rowIndex - rowIndex + (2 + 2 * col))
  let size := Size bc
  let above := (List.range (size - (rowIndex + 1))).map
    (fun k => (rowIndex + 1 + k) * (rowIndex + 1 + k) + (rowIndex + 1 + k) - (1 + 2 * k))
  below ++ above

/-- `columnBlockNumbers colIndex blockCount`: blocks above the diagonal
(`sub` starts at `2*colIndex - 1` and shrinks by 2 per row) followed by the
blocks under it (constant `add = 2*colIndex + 2`). -/
def columnBlockNumbers (colIndex bc : Nat) : List Nat :=
  let above := (List.range colIndex).map
    (fun row => colIndex * colIndex + colIndex - (2 * colIndex - 1 - 2 * row))
  let size := Size bc
  let below := (List.range (size - (colIndex + 1))).map
    (fun k => (colIndex + 1 + k) * (colIndex + 1 + k) - (colIndex + 1 + k) + (2 * colIndex + 2))
  above ++ below

/-- `GetBlockMatrixInfo`: read the `"info"` record, creating a zero-value
one (as the Go code does) when it is absent. -/
def GetBlockMatrixInfo (db : DB) : BlockMatrixInfo × DB :=
  match db.info with
  | some i => (i, db)
  | none =>
    let i : BlockMatrixInfo := ⟨0, 0, [.lit []], [.lit []]⟩
    (i, { db with info := some i })

/-- `GetBlockByNumber`. -/
def GetBlockByNumber (db : DB) (num : Nat) : Except BmErr Block :=
  match aget num db.blocks with
  | some b => .ok b
  | none => .error .notFound

/-- `calculateRowHash row blockCount`: hash together, in list order, the
stored content hashes of the row's blocks. -/
def calculateRowHash (db : DB) (row bc : Nat) : Except BmErr HBytes :=
  ((rowBlockNumbers row bc).mapM (fun n => (GetBlockByNumber db n).map (·.hash))).map shaSum

/-- `calculateColumnHash col blockCount`. -/
def calculateColumnHash (db : DB) (col bc : Nat) : Except BmErr HBytes :=
  ((columnBlockNumbers col bc).mapM (fun n => (GetBlockByNumber db n).map (·.hash))).map shaSum

/-- `updateBlockMatrixInfo`: recompute the located block's row and column
digests and persist the updated info record.  Returns the updated record as
well (the Go code mutates `info` in place). -/
def updateBlockMatrixInfo (db : DB) (info : BlockMatrixInfo) (blockNum : Nat) :
    Except BmErr (BlockMatrixInfo × DB) :=
  match calculateRowHash db (locateBlock blockNum).1 info.blockCount with
  | .error e => .error e
  | .ok rowH =>
    match calculateColumnHash db (locateBlock blockNum).2 info.blockCount with
    | .error e => .error e
    | .ok colH =>
      let info' := { info with rows := info.rows.set (locateBlock blockNum).1 rowH,
                               cols := info.cols.set (locateBlock blockNum).2 colH }
      .ok (info', { db with info := some info' })

/-- `updateBlockMatrixSize`: grow to `newSize`, eagerly materialising empty
blocks for the `2 * oldSize` new slots and appending one fresh empty digest
per axis. -/
def updateBlockMatrixSize (db : DB) (info : BlockMatrixInfo) (newSize : Nat) :
    DB × BlockMatrixInfo :=
  let numBlocksToAdd := 2 * info.size
  let info' := { info with size := newSize }
  let db' := (List.range numBlocksToAdd).foldl
    (fun d j => { d with blocks := aput (info'.blockCount + j) EmptyBlock d.blocks }) db
  (db', { info' with rows := info'.rows ++ [.lit []], cols := info'.cols ++ [.lit []] })

/-- The growth check inside `AddBlock`: if the incremented block count
pushes `Size` beyond the stored dimension, run `updateBlockMatrixSize`. -/
def growIfNeeded (db : DB) (info : BlockMatrixInfo) : DB × BlockMatrixInfo :=
  let newSize := Size info.blockCount
  if info.size < newSize then updateBlockMatrixSize db info newSize else (db, info)

/-- `AddBlock`: increment the counter, grow if needed, store
`key → blockNumber` and `blockNumber → Block`, then refresh the digests. -/
def AddBlock (db : DB) (key : List Nat) (data : List Nat) : Except BmErr DB :=
  let (info, db) := GetBlockMatrixInfo db
  let info := { info with blockCount := info.blockCount + 1 }
  let (db, info) := growIfNeeded db info
  let blockNum := info.blockCount
  let block := NewBlock data
  let db := { db with keyIndex := aput key (natDigits blockNum) db.keyIndex }
  let db := { db with blocks := aput blockNum block db.blocks }
  match updateBlockMatrixInfo db info blockNum with
  | .error e => .error e
  | .ok (_, db') => .ok db'

/-- `BlockNumber` (revision with `strconv.Atoi(string(bytes[0]))`): parse
only the FIRST byte of the stored decimal string. -/
def BlockNumber (db : DB) (key : List Nat) : Except BmErr Nat :=
  match aget key db.keyIndex with
  | none => .error .notFound
  | some bytes =>
    match bytes with
    | [] => .error .atoiError
    | b :: _ => if 48 ≤ b ∧ b ≤ 57 then .ok (b - 48) else .error .atoiError

/-- `blockmatrix.go`'s `BlockNumber` result value: `int(bytes[0])`, the
numeric value of the first stored byte. -/
def blockNumberFirstByte (bytes : List Nat) : Nat := bytes.headD 0

/-- `GetBlock`: key → stored block-number bytes → block (the second lookup
uses the stored bytes verbatim as a database key). -/
def GetBlock (db : DB) (key : List Nat) : Except BmErr Block :=
  match aget key db.keyIndex with
  | none => .error .notFound
  | some bytes =>
    match decodeDecimal bytes with
    | some n => GetBlockByNumber db n
    | none => .error .notFound

/-- `checkValidErase`: count changed row digests, and changed column digests
only in the `else` branch (an index whose row digest changed never has its
column digest inspected); report valid iff both counts are exactly one. -/
def checkValidErase (info : BlockMatrixInfo) (oldRows oldCols : List HBytes) : Bool :=
  let counts := (List.range info.size).foldl
    (fun (p : Nat × Nat) i =>
      if oldRows.getD i (.lit []) ≠ info.rows.getD i (.lit []) then (p.1 + 1, p.2)
      else if oldCols.getD i (.lit []) ≠ info.cols.getD i (.lit []) then (p.1, p.2 + 1)
      else p) (0, 0)
  counts.1 == 1 && counts.2 == 1

/-- Everything `EraseBlock` has computed just before it runs its
`checkValidErase` self-check. -/
structure EraseOutcome where
  info : BlockMatrixInfo
  oldRows : List HBytes
  oldCols : List HBytes
  db : DB
deriving DecidableEq, Repr

/-- The steps of `EraseBlock` before the final self-check: parse the block
number for the key, delete the key record, overwrite the block record with
`EmptyBlock`, snapshot the digests, refresh row/column digests. -/
def erasePrepared (db : DB) (key : List Nat) : Except BmErr EraseOutcome :=
  match BlockNumber db key with
  | .error e => .error e
  | .ok blockNum =>
    let db := { db with keyIndex := adel key db.keyIndex }
    let db := { db with blocks := aput blockNum EmptyBlock db.blocks }
    let (info, db) := GetBlockMatrixInfo db
    let oldRows := info.rows
    let oldCols := info.cols
    match updateBlockMatrixInfo db info blockNum with
    | .error e => .error e
    | .ok (info', db') => .ok ⟨info', oldRows, oldCols, db'⟩

/-- `EraseBlock`: run the erase steps, then fail with the invalid-erase
error unless `checkValidErase` reports exactly one changed row and column. -/
def EraseBlock (db : DB) (key : List Nat) : Except BmErr DB :=
  match erasePrepared db key with
  | .error e => .error e
  | .ok o =>
    if checkValidErase o.info o.oldRows o.oldCols then .ok o.db
    else .error .invalidErase

/-- `IsValid`: walk all blocks and all digests, keeping the source's
comparison direction verbatim — it reports a mismatch error precisely when
the compared values ARE equal (`reflect.DeepEqual(...) ⇒ return false`). -/
def IsValid (db : DB) : Except BmErr Bool := do
  let (info, db) := GetBlockMatrixInfo db
  (List.range info.blockCount).forM (fun k => do
    let block ← GetBlockByNumber db (k + 1)
    if block.hash = calculateHash block.data then throw (BmErr.blockHashMismatch (k + 1))
    else pure ())
  let size := Size info.blockCount
  (List.range size).forM (fun i => do
    let h ← calculateRowHash db i info.blockCount
    if info.rows.getD i (.lit []) = h then throw (BmErr.rowHashMismatch i) else pure ())
  (List.range size).forM (fun i => do
    let h ← calculateColumnHash db i info.blockCount
    if info.cols.getD i (.lit []) = h then throw (BmErr.colHashMismatch i) else pure ())
  return true

/-- `blockmatrix.go` `RowBlockNumbers rowIndex`: read the info record and
compute the row's block numbers at the stored block count. -/
def RowBlockNumbers (db : DB) (rowIndex : Nat) : Except BmErr (List Nat) :=
  let (info, _) := GetBlockMatrixInfo db
  .ok (rowBlockNumbers rowIndex info.blockCount)

/-- `blockmatrix.go` `ColumnBlockNumbers colIndex`. -/
def ColumnBlockNumbers (db : DB) (colIndex : Nat) : Except BmErr (List Nat) :=
  let (info, _) := GetBlockMatrixInfo db
  .ok (columnBlockNumbers colIndex info.blockCount)

/-- Run a sequence of `AddBlock` operations against a fresh matrix. -/
def applyAdds (ops : List (List Nat × List Nat)) : Except BmErr DB :=
  ops.foldlM (fun db op => AddBlock db op.1 op.2) initDB

/-- Inverse of `locateBlock` on off-diagonal cells, read off from the
placement formulas: below the diagonal (`j < i`) cell `(i,j)` holds block
`i² - i + 2 + 2j`; above it, cell `(i,j)` holds block `j² - j + 1 + 2i`. -/
def blockAt (p : Nat × Nat) : Nat :=
  if p.2 < p.1 then p.1 * p.1 - p.1 + 2 + 2 * p.2
  else p.2 * p.2 - p.2 + 1 + 2 * p.1

/-- The least dimension `d ≥ 1` whose off-diagonal capacity `d² - d` holds
`k` blocks (the specification's dimension invariant). -/
def IsLeastDim (d k : Nat) : Prop :=
  1 ≤ d ∧ k ≤ d * d - d ∧ ∀ m, 1 ≤ m → k ≤ m * m - m → d ≤ m

/-- Number of row-digest entries that differ between the saved and the
updated info record (over indices `0 ≤ i < size`). -/
def rowChangedCount (info : BlockMatrixInfo) (oldRows : List HBytes) : Nat :=
  (List.range info.size).countP
    (fun i => decide (oldRows.getD i (.lit []) ≠ info.rows.getD i (.lit [])))

/-- Number of column-digest entries that differ, over all indices. -/
def colChangedCount (info : BlockMatrixInfo) (oldCols : List HBytes) : Nat :=
  (List.range info.size).countP
    (fun i => decide (oldCols.getD i (.lit []) ≠ info.cols.getD i (.lit [])))

/-- Number of column-digest entries that differ at an index whose row digest
did NOT differ — the only column changes `checkValidErase`'s `else if` can
see. -/
def colChangedCountUnmasked (info : BlockMatrixInfo) (oldRows oldCols : List HBytes) : Nat :=
  (List.range info.size).countP
    (fun i => decide (¬ oldRows.getD i (.lit []) ≠ info.rows.getD i (.lit []) ∧
      oldCols.getD i (.lit []) ≠ info.cols.getD i (.lit [])))

/-- A default erase outcome (used only to extract concrete run results). -/
def eoDefault : EraseOutcome := ⟨⟨0, 0, [], []⟩, [], [], dbDefault⟩

/-- Scenario: a single insert into a fresh matrix. -/
def ops1 : List (List Nat × List Nat) := [([1], [1])]

/-- The database after the single insert of `ops1`. -/
def db1w : DB := (applyAdds ops1).toOption.getD dbDefault

/-- The database after erasing the single key of `ops1`. -/
def dbE1w : DB := (EraseBlock db1w [1]).toOption.getD dbDefault

/-- The state `EraseBlock` reaches just before its self-check, for the
`ops1` scenario. -/
def eo1w : EraseOutcome := (erasePrepared db1w [1]).toOption.getD eoDefault

/-- Scenario: five inserts with payloads `[1]`..`[5]`. -/
def ops5 : List (List Nat × List Nat) :=
  [([1], [1]), ([2], [2]), ([3], [3]), ([4], [4]), ([5], [5])]

/-- The database after the five inserts of `ops5`. -/
def db5w : DB := (applyAdds ops5).toOption.getD dbDefault

/-- The database after a sixth insert whose payload `[0]` coincides with the
empty-block sentinel payload. -/
def db6w : DB := (AddBlock db5w [6] [0]).toOption.getD dbDefault

/-- Scenario: twelve inserts with payloads `[1]`..`[12]`, so that the last
key's block number, 12, needs two decimal digits. -/
def ops12 : List (List Nat × List Nat) :=
  [([1], [1]), ([2], [2]), ([3], [3]), ([4], [4]), ([5], [5]), ([6], [6]),
   ([7], [7]), ([8], [8]), ([9], [9]), ([10], [10]), ([11], [11]), ([12], [12])]

/-- The database after the twelve inserts of `ops12`. -/
def db12w : DB := (applyAdds ops12).toOption.getD dbDefault

/-- The database after `EraseBlock` on key `[12]` of the `ops12` scenario. -/
def dbE12w : DB := (EraseBlock db12w [12]).toOption.getD dbDefault

/-- The info record stored after the single insert of `ops1`. -/
def info1w : BlockMatrixInfo := db1w.info.getD initInfo

/-! ## The integer square root -/

theorem isqrt_bracket (n : Nat) :
    isqrt n * isqrt n ≤ n ∧ n < (isqrt n + 1) * (isqrt n + 1) := by
  induction n with
  | zero => exact ⟨by decide, by decide⟩
  | succ n ih =>
    obtain ⟨ih1, ih2⟩ := ih
    simp only [isqrt]
    by_cases hc : (isqrt n + 1) * (isqrt n + 1) ≤ n + 1
    · rw [if_pos hc]
      have heq : n + 1 = (isqrt n + 1) * (isqrt n + 1) := by omega
      have hsq : (isqrt n + 1 + 1) * (isqrt n + 1 + 1)
          = (isqrt n + 1) * (isqrt n + 1) + 2 * (isqrt n + 1) + 1 := by ring
      omega
    · rw [if_neg hc]
      omega

theorem isqrt_sq_le (n : Nat) : isqrt n * isqrt n ≤ n := (isqrt_bracket n).1

theorem lt_isqrt_succ (n : Nat) : n < (isqrt n + 1) * (isqrt n + 1) := (isqrt_bracket n).2

theorem le_isqrt {m n : Nat} : m ≤ isqrt n ↔ m * m ≤ n := by
  constructor
  · intro h
    exact le_trans (Nat.mul_le_mul h h) (isqrt_sq_le n)
  · intro h
    by_contra hc
    push_neg at hc
    have h1 : (isqrt n + 1) * (isqrt n + 1) ≤ m * m := Nat.mul_le_mul (by omega) (by omega)
    have h2 := lt_isqrt_succ n
    omega

theorem isqrt_lt {m n : Nat} : isqrt m < n ↔ m < n * n := by
  constructor
  · intro h
    by_contra hc
    push_neg at hc
    have := le_isqrt.mpr hc
    omega
  · intro h
    by_contra hc
    push_neg at hc
    have := le_isqrt.mp hc
    omega

theorem isqrt_square (n : Nat) : isqrt (n * n) = n := by
  have h1 : n ≤ isqrt (n * n) := le_isqrt.mpr (le_refl _)
  have h2 : isqrt (n * n) < n + 1 := by
    apply isqrt_lt.mpr
    have hsq : (n + 1) * (n + 1) = n * n + 2 * n + 1 := by ring
    omega
  omega

theorem isqrt_mono {m n : Nat} (h : m ≤ n) : isqrt m ≤ isqrt n :=
  le_isqrt.mpr (le_trans (isqrt_sq_le m) h)

theorem isqrt_eq_sqrt (n : Nat) : isqrt n = Nat.sqrt n :=
  Nat.eq_sqrt.mpr ⟨isqrt_sq_le n, lt_isqrt_succ n⟩

/-! ## Arithmetic of the placement function -/

theorem locate_even (a j : Nat) (hj : j ≤ a) :
    locateBlock (a * a + a + 2 + 2 * j) = (a + 1, j) := by
  set n := a * a + a + 2 + 2 * j with hn
  have hpar : n % 2 = 0 := by
    rcases Nat.even_or_odd a with ⟨b, hb⟩ | ⟨b, hb⟩
    · have h4 : a * a = 4 * (b * b) := by subst hb; ring
      omega
    · have h4 : a * a = 4 * (b * b) + 4 * b + 1 := by subst hb; ring
      omega
  have h1 : a * a ≤ n := by omega
  have h2 : n < (a + 2) * (a + 2) := by
    have he : (a + 2) * (a + 2) = a * a + 4 * a + 4 := by ring
    omega
  have hs1 : a ≤ isqrt n := le_isqrt.mpr h1
  have hs2 : isqrt n < a + 2 := isqrt_lt.mpr h2
  have hsq : (a + 1) * (a + 1) = a * a + 2 * a + 1 := by ring
  have hrow : (if n ≤ isqrt n * isqrt n + isqrt n then isqrt n
      else isqrt n + 1) = a + 1 := by
    rcases (by omega : isqrt n = a ∨ isqrt n = a + 1) with h | h <;> rw [h]
    · rw [if_neg (by omega)]
    · rw [if_pos (by omega)]
  have hcol : (n - ((a + 1) * (a + 1) - (a + 1) + 2)) / 2 = j := by omega
  simp only [locateBlock, if_pos hpar, hrow]
  exact congrArg (Prod.mk (a + 1)) hcol

theorem locate_odd (a i : Nat) (hi : i ≤ a) :
    locateBlock (a * a + a + 1 + 2 * i) = (i, a + 1) := by
  set n := a * a + a + 1 + 2 * i with hn
  have hpar : ¬ n % 2 = 0 := by
    rcases Nat.even_or_odd a with ⟨b, hb⟩ | ⟨b, hb⟩
    · have h4 : a * a = 4 * (b * b) := by subst hb; ring
      omega
    · have h4 : a * a = 4 * (b * b) + 4 * b + 1 := by subst hb; ring
      omega
  have h1 : a * a ≤ n + 1 := by omega
  have h2 : n + 1 < (a + 2) * (a + 2) := by
    have he : (a + 2) * (a + 2) = a * a + 4 * a + 4 := by ring
    omega
  have hs1 : a ≤ isqrt (n + 1) := le_isqrt.mpr h1
  have hs2 : isqrt (n + 1) < a + 2 := isqrt_lt.mpr h2
  have hsq : (a + 1) * (a + 1) = a * a + 2 * a + 1 := by ring
  have hcolif : (if n < isqrt (n + 1) * isqrt (n + 1) + isqrt (n + 1)
      then isqrt (n + 1) else isqrt (n + 1) + 1) = a + 1 := by
    rcases (by omega : isqrt (n + 1) = a ∨ isqrt (n + 1) = a + 1) with h | h <;> rw [h]
    · rw [if_neg (by omega)]
    · rw [if_pos (by omega)]
  have hrow : (n - ((a + 1) * (a + 1) - (a + 1) + 1)) / 2 = i := by omega
  simp only [locateBlock, if_neg hpar, hcolif]
  exact congrArg (fun x => (x, a + 1)) hrow

theorem locate_blockAt (p : Nat × Nat) (hne : p.1 ≠ p.2) :
    locateBlock (blockAt p) = p := by
  obtain ⟨i, j⟩ := p
  simp only [ne_eq] at hne
  by_cases h : j < i
  · obtain ⟨a, rfl⟩ : ∃ a, i = a + 1 := ⟨i - 1, by omega⟩
    have hsub : (a + 1) * (a + 1) - (a + 1) + 2 + 2 * j = a * a + a + 2 + 2 * j := by
      have : (a + 1) * (a + 1) = a * a + 2 * a + 1 := by ring
      omega
    simp only [blockAt, if_pos h]
    rw [hsub]
    exact locate_even a j (by omega)
  · have h' : i < j := by omega
    obtain ⟨a, rfl⟩ : ∃ a, j = a + 1 := ⟨j - 1, by omega⟩
    have hsub : (a + 1) * (a + 1) - (a + 1) + 1 + 2 * i = a * a + a + 1 + 2 * i := by
      have : (a + 1) * (a + 1) = a * a + 2 * a + 1 := by ring
      omega
    simp only [blockAt, if_neg h]
    rw [hsub]
    exact locate_odd a i (by omega)

theorem blockAt_mem_Icc (d : Nat) (p : Nat × Nat) (h1 : p.1 < d) (h2 : p.2 < d)
    (hne : p.1 ≠ p.2) : blockAt p ∈ Finset.Icc 1 (d * d - d) := by
  obtain ⟨i, j⟩ := p
  simp only [ne_eq] at hne
  simp only [Finset.mem_Icc]
  have hdd : d ≤ d * d := Nat.le_mul_of_pos_left d (by omega)
  by_cases h : j < i
  · simp only [blockAt, if_pos h]
    obtain ⟨a, rfl⟩ : ∃ a, i = a + 1 := ⟨i - 1, by omega⟩
    have hsq : (a + 1) * (a + 1) = a * a + 2 * a + 1 := by ring
    have hd2 : a + 2 ≤ d := by omega
    have hmul : (a + 2) * (a + 1) ≤ d * (d - 1) :=
      Nat.mul_le_mul hd2 (by omega)
    have he1 : (a + 2) * (a + 1) = a * a + 3 * a + 2 := by ring
    have he2 : d * (d - 1) = d * d - d := by
      obtain ⟨e, rfl⟩ : ∃ e, d = e + 1 := ⟨d - 1, by omega⟩
      simp only [Nat.add_sub_cancel]
      have : (e + 1) * (e + 1) = (e + 1) * e + (e + 1) := by ring
      omega
    omega
  · have h' : i < j := by omega
    simp only [blockAt, if_neg h]
    obtain ⟨a, rfl⟩ : ∃ a, j = a + 1 := ⟨j - 1, by omega⟩
    have hsq : (a + 1) * (a + 1) = a * a + 2 * a + 1 := by ring
    have hd2 : a + 2 ≤ d := by omega
    have hmul : (a + 2) * (a + 1) ≤ d * (d - 1) :=
      Nat.mul_le_mul hd2 (by omega)
    have he1 : (a + 2) * (a + 1) = a * a + 3 * a + 2 := by ring
    have he2 : d * (d - 1) = d * d - d := by
      obtain ⟨e, rfl⟩ : ∃ e, d = e + 1 := ⟨d - 1, by omega⟩
      simp only [Nat.add_sub_cancel]
      have : (e + 1) * (e + 1) = (e + 1) * e + (e + 1) := by ring
      omega
    omega

theorem blockAt_injOn (d : Nat) :
    Set.InjOn blockAt ((Finset.range d).offDiag : Finset (Nat × Nat)) := by
  intro p hp q hq h
  simp only [Finset.coe_offDiag, Finset.coe_range, Set.mem_offDiag] at hp hq
  rw [← locate_blockAt p hp.2.2, ← locate_blockAt q hq.2.2, h]

theorem blockAt_image (d : Nat) :
    ((Finset.range d).offDiag).image blockAt = Finset.Icc 1 (d * d - d) := by
  apply Finset.eq_of_subset_of_card_le
  · intro n hn
    simp only [Finset.mem_image] at hn
    obtain ⟨p, hp, rfl⟩ := hn
    rw [Finset.mem_offDiag] at hp
    exact blockAt_mem_Icc d p (Finset.mem_range.mp hp.1) (Finset.mem_range.mp hp.2.1) hp.2.2
  · rw [Nat.card_Icc, Finset.card_image_of_injOn (blockAt_injOn d), Finset.offDiag_card,
      Finset.card_range]
    omega

theorem locateBlock_mem (d : Nat) (n : Nat) (hn : n ∈ Finset.Icc 1 (d * d - d)) :
    locateBlock n ∈ (Finset.range d).offDiag ∧ blockAt (locateBlock n) = n := by
  have himg : n ∈ ((Finset.range d).offDiag).image blockAt := by rw [blockAt_image]; exact hn
  simp only [Finset.mem_image] at himg
  obtain ⟨p, hp, rfl⟩ := himg
  have hne : p.1 ≠ p.2 := (Finset.mem_offDiag.mp hp).2.2
  rw [locate_blockAt p hne]
  exact ⟨hp, rfl⟩

/-! ## Arithmetic of `Size` -/

theorem ceilSqrt_sq_ge (k : Nat) : k ≤ ceilSqrt k * ceilSqrt k := by
  unfold ceilSqrt
  split
  · omega
  · have h := lt_isqrt_succ k
    omega

theorem ceilSqrt_min (k m : Nat) (h : k ≤ m * m) : ceilSqrt k ≤ m := by
  unfold ceilSqrt
  split
  · have hmono : isqrt k ≤ isqrt (m * m) := isqrt_mono h
    rwa [isqrt_square] at hmono
  · rcases Nat.lt_or_ge (isqrt k) m with hlt | hge
    · omega
    · exfalso
      rename_i hne
      have h1 : m * m ≤ isqrt k * isqrt k := Nat.mul_le_mul hge hge
      have h2 : isqrt k * isqrt k ≤ k := isqrt_sq_le k
      have h3 : k = m * m := by omega
      have h4 : isqrt k = m := by rw [h3, isqrt_square]
      omega

theorem Size_least (k : Nat) (hk : 1 ≤ k) : IsLeastDim (Size k) k := by
  have hge := ceilSqrt_sq_ge k
  show IsLeastDim
    (if ceilSqrt k * ceilSqrt k - ceilSqrt k < k then ceilSqrt k + 1 else ceilSqrt k) k
  set s := ceilSqrt k with hs
  split
  · rename_i hlt
    have hs1 : 1 ≤ s := by
      rcases Nat.eq_zero_or_pos s with h | h
      · exfalso; rw [h] at hge; omega
      · exact h
    refine ⟨by omega, ?_, ?_⟩
    · have hsq : (s + 1) * (s + 1) = s * s + 2 * s + 1 := by ring
      omega
    · intro m hm hcap
      have hmm : m ≤ m * m := Nat.le_mul_of_pos_left m hm
      have h1 : s ≤ m := ceilSqrt_min k m (by omega)
      rcases Nat.lt_or_ge s m with h2 | h2
      · omega
      · have hms : m = s := by omega
        subst hms
        omega
  · rename_i hnlt
    have hs1 : 1 ≤ s := by
      rcases Nat.eq_zero_or_pos s with h | h
      · exfalso; rw [h] at hnlt; omega
      · exact h
    refine ⟨hs1, by omega, ?_⟩
    intro m hm hcap
    have hmm : m ≤ m * m := Nat.le_mul_of_pos_left m hm
    exact ceilSqrt_min k m (by omega)

theorem IsLeastDim_mono (k k' d d' : Nat) (h : IsLeastDim d k) (h' : IsLeastDim d' k')
    (hkk : k ≤ k') : d ≤ d' :=
  h.2.2 d' h'.1 (le_trans hkk h'.2.1)

/-! ## Success-case analysis of the mutating operations -/

theorem GetBlockMatrixInfo_some (db : DB) (info : BlockMatrixInfo)
    (h : db.info = some info) : GetBlockMatrixInfo db = (info, db) := by
  unfold GetBlockMatrixInfo
  rw [h]

theorem updateBlockMatrixInfo_ok (db : DB) (info : BlockMatrixInfo) (bn : Nat)
    (info' : BlockMatrixInfo) (db' : DB)
    (h : updateBlockMatrixInfo db info bn = .ok (info', db')) :
    ∃ rowH colH,
      info' = { info with rows := info.rows.set (locateBlock bn).1 rowH,
                          cols := info.cols.set (locateBlock bn).2 colH } ∧
      db' = { db with info := some info' } := by
  unfold updateBlockMatrixInfo at h
  split at h
  · exact absurd h (by simp)
  · split at h
    · exact absurd h (by simp)
    · simp only [Except.ok.injEq, Prod.mk.injEq] at h
      exact ⟨_, _, h.1.symm, by rw [h.2.symm, h.1]⟩

theorem growIfNeeded_snd (db : DB) (info : BlockMatrixInfo) :
    (growIfNeeded db info).2 =
      if info.size < Size info.blockCount then
        { info with size := Size info.blockCount,
                    rows := info.rows ++ [.lit []], cols := info.cols ++ [.lit []] }
      else info := by
  unfold growIfNeeded updateBlockMatrixSize
  simp only []
  split
  · rfl
  · rfl

theorem AddBlock_ok_info (db : DB) (key data : List Nat) (db' : DB) (info : BlockMatrixInfo)
    (hinfo : db.info = some info) (h : AddBlock db key data = .ok db') :
    ∃ rowH colH,
      db'.info = some
        { size := if info.size < Size (info.blockCount + 1) then Size (info.blockCount + 1)
                  else info.size,
          blockCount := info.blockCount + 1,
          rows := (if info.size < Size (info.blockCount + 1) then info.rows ++ [.lit []]
                   else info.rows).set (locateBlock (info.blockCount + 1)).1 rowH,
          cols := (if info.size < Size (info.blockCount + 1) then info.cols ++ [.lit []]
                   else info.cols).set (locateBlock (info.blockCount + 1)).2 colH } := by
  unfold AddBlock at h
  rw [GetBlockMatrixInfo_some db info hinfo] at h
  simp only [] at h
  rcases hq : growIfNeeded db { info with blockCount := info.blockCount + 1 }
    with ⟨dbG, infoG⟩
  rw [hq] at h
  simp only [] at h
  split at h
  · exact absurd h (by simp)
  · rename_i p heq
    obtain ⟨infoU, dbU⟩ := p
    obtain ⟨rowH, colH, hiU, hdU⟩ := updateBlockMatrixInfo_ok _ _ _ _ _ heq
    simp only [Except.ok.injEq] at h
    have hG : infoG = (growIfNeeded db { info with blockCount := info.blockCount + 1 }).2 := by
      rw [hq]
    rw [growIfNeeded_snd] at hG
    simp only [] at hG
    refine ⟨rowH, colH, ?_⟩
    rw [← h, hdU, hiU]
    simp only []
    rw [hG]
    split <;> simp_all

/-! ## Reachability invariants for the dimension -/

theorem except_bind_ok {α β : Type} (a : α) (f : α → Except BmErr β) :
    (Except.ok a >>= f) = f a := rfl

theorem except_bind_error {α β : Type} (e : BmErr) (f : α → Except BmErr β) :
    ((Except.error e : Except BmErr α) >>= f) = .error e := rfl

theorem AddBlock_SizeInv (db db' : DB) (k d : List Nat) (info : BlockMatrixInfo)
    (hinfo : db.info = some info)
    (hsz : info.size = if info.blockCount = 0 then 1 else Size info.blockCount)
    (h : AddBlock db k d = .ok db') :
    ∃ info', db'.info = some info' ∧ info'.blockCount = info.blockCount + 1 ∧
      info'.size = Size (info.blockCount + 1) := by
  obtain ⟨rowH, colH, hshape⟩ := AddBlock_ok_info db k d db' info hinfo h
  refine ⟨_, hshape, rfl, ?_⟩
  simp only []
  by_cases h0 : info.blockCount = 0
  · rw [h0] at hsz ⊢
    rw [if_pos rfl] at hsz
    rw [hsz]
    decide
  · have hk : 1 ≤ info.blockCount := by omega
    have hsz' : info.size = Size info.blockCount := by rw [hsz, if_neg h0]
    have hmono : Size info.blockCount ≤ Size (info.blockCount + 1) :=
      IsLeastDim_mono _ _ _ _ (Size_least _ hk) (Size_least _ (by omega)) (by omega)
    rw [hsz']
    split
    · rfl
    · omega

theorem foldAdds_SizeInv (ops : List (List Nat × List Nat)) :
    ∀ (db db' : DB) (n : Nat),
    (∃ info, db.info = some info ∧ info.blockCount = n ∧
      info.size = (if n = 0 then 1 else Size n)) →
    ops.foldlM (fun db op => AddBlock db op.1 op.2) db = .ok db' →
    ∃ info', db'.info = some info' ∧ info'.blockCount = n + ops.length ∧
      info'.size = (if n + ops.length = 0 then 1 else Size (n + ops.length)) := by
  induction ops with
  | nil =>
    intro db db' n hinv hfold
    rw [List.foldlM_nil] at hfold
    cases hfold
    simpa using hinv
  | cons op t ih =>
    intro db db' n hinv hfold
    obtain ⟨info, hinfo, hbc, hsz⟩ := hinv
    rw [List.foldlM_cons] at hfold
    cases hstep : AddBlock db op.1 op.2 with
    | error e => rw [hstep, except_bind_error] at hfold; exact absurd hfold (by simp)
    | ok db1 =>
      rw [hstep, except_bind_ok] at hfold
      subst hbc
      obtain ⟨info1, hinfo1, hbc1, hsz1⟩ := AddBlock_SizeInv db db1 op.1 op.2 info hinfo hsz hstep
      have hinv1 : ∃ i1, db1.info = some i1 ∧ i1.blockCount = info.blockCount + 1 ∧
          i1.size = (if info.blockCount + 1 = 0 then 1 else Size (info.blockCount + 1)) :=
        ⟨info1, hinfo1, hbc1, by rw [if_neg (by omega)]; exact hsz1⟩
      obtain ⟨info', hinfo', hbc', hsz'⟩ := ih db1 db' (info.blockCount + 1) hinv1 hfold
      refine ⟨info', hinfo', by simp [hbc']; omega, ?_⟩
      have : info.blockCount + 1 + t.length = info.blockCount + (t.length + 1) := by omega
      rw [this] at hbc' hsz'
      simpa using hsz'

theorem AddBlock_size_le (db db' : DB) (k d : List Nat) (info info' : BlockMatrixInfo)
    (hinfo : db.info = some info) (h : AddBlock db k d = .ok db')
    (hinfo' : db'.info = some info') : info.size ≤ info'.size := by
  obtain ⟨rowH, colH, hshape⟩ := AddBlock_ok_info db k d db' info hinfo h
  rw [hinfo'] at hshape
  have hrec := Option.some.inj hshape
  have : info'.size = (if info.size < Size (info.blockCount + 1)
      then Size (info.blockCount + 1) else info.size) := by rw [hrec]
  rw [this]
  split
  · omega
  · exact le_refl _

theorem foldAdds_size_le (ops : List (List Nat × List Nat)) :
    ∀ (db db' : DB) (info : BlockMatrixInfo), db.info = some info →
    ops.foldlM (fun db op => AddBlock db op.1 op.2) db = .ok db' →
    ∃ info', db'.info = some info' ∧ info.size ≤ info'.size := by
  induction ops with
  | nil =>
    intro db db' info hinfo hfold
    rw [List.foldlM_nil] at hfold
    cases hfold
    exact ⟨info, hinfo, le_refl _⟩
  | cons op t ih =>
    intro db db' info hinfo hfold
    rw [List.foldlM_cons] at hfold
    cases hstep : AddBlock db op.1 op.2 with
    | error e => rw [hstep, except_bind_error] at hfold; exact absurd hfold (by simp)
    | ok db1 =>
      rw [hstep, except_bind_ok] at hfold
      obtain ⟨rowH, colH, hshape⟩ := AddBlock_ok_info db op.1 op.2 db1 info hinfo hstep
      obtain ⟨info', hinfo', hle⟩ := ih db1 db' _ hshape hfold
      refine ⟨info', hinfo', le_trans ?_ hle⟩
      simp only []
      split
      · omega
      · exact le_refl _

/-! ## Small list and association-list lemmas -/

theorem getD_set_ne {α : Type} (l : List α) (i j : Nat) (v d : α) (h : j ≠ i) :
    (l.set j v).getD i d = l.getD i d := by
  induction l generalizing i j with
  | nil => rfl
  | cons x t ih =>
    cases j with
    | zero =>
      cases i with
      | zero => omega
      | succ i' => rfl
    | succ j' =>
      cases i with
      | zero => rfl
      | succ i' => simpa using ih i' j' (by omega)

theorem getD_append_left {α : Type} (l l' : List α) (i : Nat) (h : i < l.length) (d : α) :
    (l ++ l').getD i d = l.getD i d := by
  induction l generalizing i with
  | nil => simp at h
  | cons x t ih =>
    cases i with
    | zero => rfl
    | succ i' =>
      simp only [List.length_cons] at h
      simpa using ih i' (by omega)

theorem aget_aput_same {κ α : Type} [DecidableEq κ] (k : κ) (v : α) (l : List (κ × α)) :
    aget k (aput k v l) = some v := by
  simp [aget, aput]

theorem aget_aput_ne {κ α : Type} [DecidableEq κ] (k k' : κ) (v : α) (l : List (κ × α))
    (h : k' ≠ k) : aget k (aput k' v l) = aget k l := by
  simp [aget, aput, h]

theorem aget_adel_same {κ α : Type} [DecidableEq κ] (k : κ) (l : List (κ × α)) :
    aget k (adel k l) = none := by
  induction l with
  | nil => rfl
  | cons p t ih =>
    by_cases h : p.1 = k
    · simpa [adel, List.filter, h] using ih
    · simpa [adel, List.filter, h, aget] using ih

theorem aget_isSome_aput {κ α : Type} [DecidableEq κ] (k k' : κ) (v : α) (l : List (κ × α))
    (h : (aget k l).isSome) : (aget k (aput k' v l)).isSome := by
  by_cases hk : k' = k
  · subst hk; rw [aget_aput_same]; rfl
  · rwa [aget_aput_ne _ _ _ _ hk]

/-! ## Success-case analysis of `EraseBlock` -/

theorem erasePrepared_ok (db : DB) (key : List Nat) (o : EraseOutcome)
    (info₀ : BlockMatrixInfo) (hinfo : db.info = some info₀)
    (h : erasePrepared db key = .ok o) :
    ∃ bn rowH colH, BlockNumber db key = .ok bn ∧
      o.oldRows = info₀.rows ∧ o.oldCols = info₀.cols ∧
      o.info = { info₀ with rows := info₀.rows.set (locateBlock bn).1 rowH,
                            cols := info₀.cols.set (locateBlock bn).2 colH } ∧
      o.db = { info := some o.info,
               blocks := aput bn EmptyBlock db.blocks,
               keyIndex := adel key db.keyIndex } := by
  unfold erasePrepared at h
  split at h
  · exact absurd h (by simp)
  · rename_i bn hbn
    simp only [] at h
    rw [show GetBlockMatrixInfo
        { info := db.info, blocks := aput bn EmptyBlock db.blocks,
          keyIndex := adel key db.keyIndex } =
        (info₀, { info := db.info, blocks := aput bn EmptyBlock db.blocks,
                  keyIndex := adel key db.keyIndex })
      from GetBlockMatrixInfo_some _ _ hinfo] at h
    simp only [] at h
    split at h
    · exact absurd h (by simp)
    · rename_i p heq
      obtain ⟨infoU, dbU⟩ := p
      obtain ⟨rowH, colH, hiU, hdU⟩ := updateBlockMatrixInfo_ok _ _ _ _ _ heq
      simp only [Except.ok.injEq] at h
      refine ⟨bn, rowH, colH, hbn, ?_, ?_, ?_, ?_⟩
      · rw [← h]
      · rw [← h]
      · rw [← h]
        simpa using hiU
      · rw [← h]
        simp only []
        rw [hdU, hiU, hinfo]

/-! ## Counting semantics of `checkValidErase` -/

theorem foldl_pair_count (l : List Nat) (A B : Nat → Prop) [DecidablePred A] [DecidablePred B]
    (a b : Nat) :
    (l.foldl (fun (p : Nat × Nat) i =>
        if A i then (p.1 + 1, p.2) else if B i then (p.1, p.2 + 1) else p) (a, b))
      = (a + l.countP (fun i => decide (A i)),
         b + l.countP (fun i => decide (¬ A i ∧ B i))) := by
  induction l generalizing a b with
  | nil => simp
  | cons x t ih =>
    simp only [List.foldl_cons, List.countP_cons]
    by_cases hA : A x
    · rw [if_pos hA, ih]
      simp [hA]
      omega
    · by_cases hB : B x
      · rw [if_neg hA, if_pos hB, ih]
        simp [hA, hB]
        omega
      · rw [if_neg hA, if_neg hB, ih]
        simp [hA, hB]

theorem checkValidErase_iff (info : BlockMatrixInfo) (oldRows oldCols : List HBytes) :
    checkValidErase info oldRows oldCols = true ↔
      (rowChangedCount info oldRows = 1 ∧ colChangedCountUnmasked info oldRows oldCols = 1) := by
  unfold checkValidErase
  rw [foldl_pair_count (List.range info.size)
    (fun i => oldRows.getD i (.lit []) ≠ info.rows.getD i (.lit []))
    (fun i => oldCols.getD i (.lit []) ≠ info.cols.getD i (.lit [])) 0 0]
  simp only [Nat.zero_add, Bool.and_eq_true, beq_iff_eq]
  rfl

theorem EraseBlock_check (db : DB) (key : List Nat) (o : EraseOutcome)
    (h : erasePrepared db key = .ok o) :
    (EraseBlock db key = .ok o.db ↔ checkValidErase o.info o.oldRows o.oldCols = true) ∧
    (checkValidErase o.info o.oldRows o.oldCols = false →
      EraseBlock db key = .error .invalidErase) := by
  unfold EraseBlock
  rw [h]
  simp only []
  by_cases hc : checkValidErase o.info o.oldRows o.oldCols = true
  · rw [if_pos hc]
    exact ⟨⟨fun _ => hc, fun _ => rfl⟩, fun hf => absurd hc (by simp [hf])⟩
  · rw [if_neg hc]
    exact ⟨⟨fun hcon => absurd hcon (by simp), fun hceq => absurd hceq hc⟩, fun _ => rfl⟩

theorem EraseBlock_ok (db : DB) (key : List Nat) (db' : DB)
    (h : EraseBlock db key = .ok db') :
    ∃ o, erasePrepared db key = .ok o ∧ db' = o.db ∧
      checkValidErase o.info o.oldRows o.oldCols = true := by
  unfold EraseBlock at h
  split at h
  · exact absurd h (by simp)
  · rename_i o heq
    split at h
    · rename_i hc
      simp only [Except.ok.injEq] at h
      exact ⟨o, heq, h.symm, hc⟩
    · exact absurd h (by simp)

/-! ## Claim C8 (amended): digest locality of a single insert -/

/-- C8 (amended): after a single successful `AddBlock`, every pre-existing
row-digest entry other than the inserted block's row, and every pre-existing
column-digest entry other than its column, is byte-identical to its
pre-insert value; hence at most one row digest and at most one column digest
differ (the recomputed entries themselves, which can coincide with their old
values — see the counterexample). -/
theorem addBlock_digest_locality (db db' : DB) (key data : List Nat)
    (info info' : BlockMatrixInfo) (hinfo : db.info = some info)
    (h : AddBlock db key data = .ok db') (hinfo' : db'.info = some info') :
    info'.blockCount = info.blockCount + 1 ∧
    (∀ i, i < info.rows.length → i ≠ (locateBlock (info.blockCount + 1)).1 →
      info'.rows.getD i (.lit []) = info.rows.getD i (.lit [])) ∧
    (∀ i, i < info.cols.length → i ≠ (locateBlock (info.blockCount + 1)).2 →
      info'.cols.getD i (.lit []) = info.cols.getD i (.lit [])) := by
  obtain ⟨rowH, colH, hshape⟩ := AddBlock_ok_info db key data db' info hinfo h
  rw [hinfo'] at hshape
  have hrec := Option.some.inj hshape
  refine ⟨by rw [hrec], ?_, ?_⟩
  · intro i hlen hne
    rw [hrec]
    simp only []
    rw [getD_set_ne _ _ _ _ _ (Ne.symm hne)]
    split
    · exact getD_append_left _ _ _ hlen _
    · rfl
  · intro i hlen hne
    rw [hrec]
    simp only []
    rw [getD_set_ne _ _ _ _ _ (Ne.symm hne)]
    split
    · exact getD_append_left _ _ _ hlen _
    · rfl

/-! ## Claim theorems -/

/-- C1: for every dimension `d ≥ 1`, `locateBlock` restricted to block
numbers `1..d²-d` is a bijection onto the off-diagonal cells of the `d×d`
grid: every such block number lands on an in-grid off-diagonal cell, no two
distinct block numbers share a cell, and every off-diagonal cell is the
image of some block number in the range.  (`locateBlock` is a function of
the block number alone by construction, so placement is deterministic.) -/
theorem locateBlock_offdiag_bijection (d : Nat) (hd : 1 ≤ d) :
    (∀ n ∈ Finset.Icc 1 (d * d - d), locateBlock n ∈ (Finset.range d).offDiag) ∧
    (∀ n ∈ Finset.Icc 1 (d * d - d), ∀ m ∈ Finset.Icc 1 (d * d - d),
      locateBlock n = locateBlock m → n = m) ∧
    (∀ p ∈ (Finset.range d).offDiag, ∃ n ∈ Finset.Icc 1 (d * d - d), locateBlock n = p) := by
  refine ⟨fun n hn => (locateBlock_mem d n hn).1, fun n hn m hm h => ?_, fun p hp => ?_⟩
  · rw [← (locateBlock_mem d n hn).2, ← (locateBlock_mem d m hm).2, h]
  · have hne : p.1 ≠ p.2 := (Finset.mem_offDiag.mp hp).2.2
    refine ⟨blockAt p, ?_, locate_blockAt p hne⟩
    rw [Finset.mem_offDiag] at hp
    exact blockAt_mem_Icc d p (Finset.mem_range.mp hp.1) (Finset.mem_range.mp hp.2.1) hp.2.2

/-- Witness for C1 at the concrete dimension `d = 3`. -/
theorem locateBlock_offdiag_bijection_witness :
    (∀ n ∈ Finset.Icc 1 (3 * 3 - 3), locateBlock n ∈ (Finset.range 3).offDiag) ∧
    (∀ n ∈ Finset.Icc 1 (3 * 3 - 3), ∀ m ∈ Finset.Icc 1 (3 * 3 - 3),
      locateBlock n = locateBlock m → n = m) ∧
    (∀ p ∈ (Finset.range 3).offDiag, ∃ n ∈ Finset.Icc 1 (3 * 3 - 3), locateBlock n = p) :=
  locateBlock_offdiag_bijection 3 (by omega)

/-- C2: with 5 blocks stored, row 2's block numbers are `[4, 6]` and column
1's are `[1, 6]`; with 25 blocks stored, row 0's are `[1, 3, 7, 13, 21]`
and column 3's are `[7, 9, 11, 20, 28]`; and the lists depend on the stored
block count only through the dimension `Size` computes from it. -/
theorem blockNumbers_concrete :
    (∀ db info, db.info = some info → info.blockCount = 5 →
      RowBlockNumbers db 2 = .ok [4, 6] ∧ ColumnBlockNumbers db 1 = .ok [1, 6]) ∧
    (∀ db info, db.info = some info → info.blockCount = 25 →
      RowBlockNumbers db 0 = .ok [1, 3, 7, 13, 21] ∧
      ColumnBlockNumbers db 3 = .ok [7, 9, 11, 20, 28]) ∧
    (∀ i b b', Size b = Size b' →
      rowBlockNumbers i b = rowBlockNumbers i b' ∧
      columnBlockNumbers i b = columnBlockNumbers i b') := by
  refine ⟨?_, ?_, ?_⟩
  · intro db info hinfo hbc
    unfold RowBlockNumbers ColumnBlockNumbers
    rw [GetBlockMatrixInfo_some db info hinfo]
    simp only [hbc]
    exact ⟨by decide, by decide⟩
  · intro db info hinfo hbc
    unfold RowBlockNumbers ColumnBlockNumbers
    rw [GetBlockMatrixInfo_some db info hinfo]
    simp only [hbc]
    exact ⟨by decide, by decide⟩
  · intro i b b' h
    unfold rowBlockNumbers columnBlockNumbers
    rw [h]
    exact ⟨rfl, rfl⟩

/-- Witness for C2: concrete databases holding 5 and 25 blocks, plus the
two block counts 5 and 6 which share dimension 3. -/
theorem blockNumbers_concrete_witness :
    (RowBlockNumbers ⟨some ⟨3, 5, [], []⟩, [], []⟩ 2 = .ok [4, 6] ∧
      ColumnBlockNumbers ⟨some ⟨3, 5, [], []⟩, [], []⟩ 1 = .ok [1, 6]) ∧
    (RowBlockNumbers ⟨some ⟨6, 25, [], []⟩, [], []⟩ 0 = .ok [1, 3, 7, 13, 21] ∧
      ColumnBlockNumbers ⟨some ⟨6, 25, [], []⟩, [], []⟩ 3 = .ok [7, 9, 11, 20, 28]) ∧
    rowBlockNumbers 0 5 = rowBlockNumbers 0 6 :=
  ⟨blockNumbers_concrete.1 _ _ rfl rfl,
   blockNumbers_concrete.2.1 _ _ rfl rfl,
   (blockNumbers_concrete.2.2 0 5 6 (by decide)).1⟩

/-- C3: in every state reachable from the freshly initialized matrix by
`AddBlock` operations, the stored dimension is the least `n ≥ 1` with
`n² - n ≥ blockCount` (so `blockCount ≤ dimension² - dimension`), the block
count equals the number of inserts, `Size` computes that least dimension for
every positive block count, and the dimension never decreases across
inserts. -/
theorem dimension_invariant :
    (∀ ops db, applyAdds ops = .ok db →
      ∃ info, db.info = some info ∧ info.blockCount = ops.length ∧
        IsLeastDim info.size info.blockCount) ∧
    (∀ k, 1 ≤ k → IsLeastDim (Size k) k) ∧
    (∀ ops more db db', applyAdds ops = .ok db → applyAdds (ops ++ more) = .ok db' →
      ∀ info info', db.info = some info → db'.info = some info' →
        info.size ≤ info'.size) := by
  refine ⟨?_, fun k hk => Size_least k hk, ?_⟩
  · intro ops db h
    unfold applyAdds at h
    obtain ⟨info, hinfo, hbc, hsz⟩ := foldAdds_SizeInv ops initDB db 0
      ⟨initInfo, rfl, rfl, rfl⟩ h
    rw [Nat.zero_add] at hbc hsz
    refine ⟨info, hinfo, hbc, ?_⟩
    by_cases h0 : ops.length = 0
    · rw [hbc, h0]
      rw [h0, if_pos rfl] at hsz
      rw [hsz]
      exact ⟨le_refl 1, by omega, fun m hm _ => hm⟩
    · rw [if_neg h0] at hsz
      rw [hbc, hsz]
      exact Size_least _ (by omega)
  · intro ops more db db' h h' info info' hinfo hinfo'
    unfold applyAdds at h h'
    rw [List.foldlM_append, h, except_bind_ok] at h'
    obtain ⟨info'', hinfo'', hle⟩ := foldAdds_size_le more db db' info hinfo h'
    rw [hinfo'] at hinfo''
    obtain rfl : info' = info'' := Option.some.inj hinfo''
    exact hle

/-- Witness for C3: one concrete insert, yielding block count 1 and the
least dimension 2. -/
theorem dimension_invariant_witness :
    ∃ info, db1w.info = some info ∧ info.blockCount = ops1.length ∧
      IsLeastDim info.size info.blockCount :=
  dimension_invariant.1 ops1 db1w (by decide)

/-- C4 (code bug): `IsValid` inverts every comparison; after a single
well-formed insert (whose stored block hash provably equals its
recomputation) it reports a block-hash mismatch instead of succeeding. -/
theorem isValid_inverted_report :
    applyAdds ops1 = .ok db1w ∧
    aget 1 db1w.blocks = some (NewBlock [1]) ∧
    (NewBlock [1]).hash = calculateHash (NewBlock [1]).data ∧
    IsValid db1w = .error (.blockHashMismatch 1) :=
  ⟨by decide, by decide, rfl, by decide⟩

/-- C5 (code bug): after twelve inserts the key `[12]` maps to the stored
decimal bytes `"12"`, but `BlockNumber` parses only the first byte and
returns 1; the other revision's `int(bytes[0])` returns the ASCII code
49. -/
theorem blockNumber_first_digit :
    applyAdds ops12 = .ok db12w ∧
    aget [12] db12w.keyIndex = some (natDigits 12) ∧
    natDigits 12 = [49, 50] ∧
    BlockNumber db12w [12] = .ok 1 ∧
    blockNumberFirstByte (natDigits 12) = 49 := by
  refine ⟨by decide, by decide, by decide, by decide, by decide⟩

/-- C6 (code bug): erasing the key whose block number is 12 succeeds but —
because `BlockNumber` parses only the first stored byte — overwrites block
1 with the sentinel and leaves block 12's content untouched. -/
theorem eraseBlock_erases_wrong_block :
    applyAdds ops12 = .ok db12w ∧
    EraseBlock db12w [12] = .ok dbE12w ∧
    aget 12 dbE12w.blocks = some (NewBlock [12]) ∧
    NewBlock [12] ≠ EmptyBlock ∧
    aget 1 dbE12w.blocks = some EmptyBlock := by
  refine ⟨by decide, by decide, by decide, by decide, by decide⟩

/-- Counterexample to C7 as stated: with one changed row digest (index 0)
and two changed column digests (indices 0 and 1), `checkValidErase` still
reports the erase valid, because its `else if` never inspects the column at
an index whose row digest changed. -/
theorem checkValidErase_masks_column_change :
    checkValidErase
      ⟨2, 2, [.lit [9], .lit [1]], [.lit [8], .lit [7]]⟩
      [.lit [0], .lit [1]] [.lit [0], .lit [1]] = true ∧
    rowChangedCount ⟨2, 2, [.lit [9], .lit [1]], [.lit [8], .lit [7]]⟩
      [.lit [0], .lit [1]] = 1 ∧
    colChangedCount ⟨2, 2, [.lit [9], .lit [1]], [.lit [8], .lit [7]]⟩
      [.lit [0], .lit [1]] = 2 := by
  refine ⟨by decide, by decide, by decide⟩

/-- C7 (amended): `checkValidErase` counts changed row digests, but counts a
changed column digest only at indices whose row digest is unchanged; it
reports the erase valid iff both counts are exactly one, and `EraseBlock`
returns the invalid-erase error exactly when the check reports invalid. -/
theorem checkValidErase_counting :
    (∀ info oldRows oldCols, checkValidErase info oldRows oldCols = true ↔
      (rowChangedCount info oldRows = 1 ∧
        colChangedCountUnmasked info oldRows oldCols = 1)) ∧
    (∀ db key o, erasePrepared db key = .ok o →
      (EraseBlock db key = .ok o.db ↔
        checkValidErase o.info o.oldRows o.oldCols = true) ∧
      (checkValidErase o.info o.oldRows o.oldCols = false →
        EraseBlock db key = .error .invalidErase)) :=
  ⟨checkValidErase_iff, EraseBlock_check⟩

/-- Witness for C7 (amended), at the erase reached by the one-insert
scenario. -/
theorem checkValidErase_counting_witness :
    (checkValidErase eo1w.info eo1w.oldRows eo1w.oldCols = true ↔
      (rowChangedCount eo1w.info eo1w.oldRows = 1 ∧
        colChangedCountUnmasked eo1w.info eo1w.oldRows eo1w.oldCols = 1)) ∧
    (EraseBlock db1w [1] = .ok eo1w.db ↔
      checkValidErase eo1w.info eo1w.oldRows eo1w.oldCols = true) :=
  ⟨checkValidErase_counting.1 eo1w.info eo1w.oldRows eo1w.oldCols,
   (checkValidErase_counting.2 db1w [1] eo1w (by decide)).1⟩

/-- Counterexample to C8 as stated: inserting the payload `[0]` as block 6
recomputes its row digest to the very bytes already stored (the slot held
an empty block covered by that digest), so NO row digest differs from its
pre-insert value, yet the insert succeeded. -/
theorem addBlock_insert_digest_unchanged :
    applyAdds ops5 = .ok db5w ∧
    AddBlock db5w [6] [0] = .ok db6w ∧
    db6w.info.map (fun i => i.blockCount) = some 6 ∧
    db6w.info.map (fun i => i.rows) = db5w.info.map (fun i => i.rows) := by
  refine ⟨by decide, by decide, by decide, by decide⟩

/-- Witness for C8 (amended), at the first insert into a fresh matrix. -/
theorem addBlock_digest_locality_witness :
    info1w.blockCount = initInfo.blockCount + 1 ∧
    (∀ i, i < initInfo.rows.length → i ≠ (locateBlock (initInfo.blockCount + 1)).1 →
      info1w.rows.getD i (.lit []) = initInfo.rows.getD i (.lit [])) ∧
    (∀ i, i < initInfo.cols.length → i ≠ (locateBlock (initInfo.blockCount + 1)).2 →
      info1w.cols.getD i (.lit []) = initInfo.cols.getD i (.lit [])) :=
  addBlock_digest_locality initDB db1w [1] [1] initInfo info1w rfl (by decide) (by decide)

/-- Counterexample to C9 as stated: block 3 does not lie in the 2×2 grid at
all — `locateBlock 3 = (0, 2)` — so blocks 1..4 cannot fill the 2×2 grid's
off-diagonal cells, and block 5 (at `(1, 2)`) is not the first block of the
3×3 shell. -/
theorem placement_shell_cex :
    locateBlock 3 = (0, 2) ∧
    ¬ locateBlock 3 ∈ (Finset.range 2).offDiag ∧
    locateBlock 5 = (1, 2) := by
  refine ⟨by decide, by decide, by decide⟩

/-- C9 (amended): block 1 maps to `(0, 1)`; blocks 1..2 fill the 2×2 grid's
off-diagonal cells; blocks 3..6 form exactly the 3×3 shell (the off-diagonal
cells of the 3×3 grid outside the 2×2 grid), so block 3 — not 5 — is the
first block of that shell, and block 5 sits inside it at `(1, 2)`. -/
theorem placement_shell_structure :
    locateBlock 1 = (0, 1) ∧
    Finset.image (fun n => locateBlock n) (Finset.Icc 1 2) = (Finset.range 2).offDiag ∧
    Finset.image (fun n => locateBlock n) (Finset.Icc 3 6)
      = (Finset.range 3).offDiag \ (Finset.range 2).offDiag ∧
    locateBlock 3 = (0, 2) ∧ locateBlock 5 = (1, 2) := by
  refine ⟨by decide, by decide, by decide, by decide, by decide⟩

/-- Counterexample to C10 as stated: after the successful erase of key
`[12]`, the key record is gone, but the block record at the number the key
mapped to (12) was NOT overwritten with the sentinel — block 1 was. -/
theorem eraseBlock_sentinel_cex :
    applyAdds ops12 = .ok db12w ∧
    EraseBlock db12w [12] = .ok dbE12w ∧
    aget [12] dbE12w.keyIndex = none ∧
    ¬ aget 12 dbE12w.blocks = some EmptyBlock := by
  refine ⟨by decide, by decide, by decide, by decide⟩

/-- C10 (amended): when `EraseBlock key` succeeds, the key record is
deleted, so `GetBlock` and `BlockNumber` on that key subsequently fail with
the not-found error; every block record present before remains present; and
the record that is overwritten with the sentinel is the one at the number
`BlockNumber` parsed from the first stored byte (equal to the key's block
number exactly when that number has a single decimal digit). -/
theorem eraseBlock_delete_semantics (db db' : DB) (key : List Nat) (bn : Nat)
    (info₀ : BlockMatrixInfo) (hinfo : db.info = some info₀)
    (hbn : BlockNumber db key = .ok bn)
    (h : EraseBlock db key = .ok db') :
    aget key db'.keyIndex = none ∧
    GetBlock db' key = .error .notFound ∧
    BlockNumber db' key = .error .notFound ∧
    (∀ n, (aget n db.blocks).isSome → (aget n db'.blocks).isSome) ∧
    aget bn db'.blocks = some EmptyBlock := by
  obtain ⟨o, hprep, rfl, hcheck⟩ := EraseBlock_ok db key db' h
  obtain ⟨bn', rowH, colH, hbn', _, _, _, hdb⟩ := erasePrepared_ok db key o info₀ hinfo hprep
  obtain rfl : bn = bn' := Except.ok.inj (hbn.symm.trans hbn')
  rw [hdb]
  have hkey : aget key (adel key db.keyIndex) = none := aget_adel_same key db.keyIndex
  refine ⟨hkey, ?_, ?_, ?_, ?_⟩
  · unfold GetBlock
    simp only [hkey]
  · unfold BlockNumber
    simp only [hkey]
  · intro n hn
    exact aget_isSome_aput n bn EmptyBlock db.blocks hn
  · exact aget_aput_same bn EmptyBlock db.blocks

/-- Witness for C10 (amended), at the one-insert scenario. -/
theorem eraseBlock_delete_semantics_witness :
    aget [1] dbE1w.keyIndex = none ∧
    GetBlock dbE1w [1] = .error .notFound ∧
    BlockNumber dbE1w [1] = .error .notFound ∧
    (∀ n, (aget n db1w.blocks).isSome → (aget n dbE1w.blocks).isSome) ∧
    aget 1 dbE1w.blocks = some EmptyBlock :=
  eraseBlock_delete_semantics db1w dbE1w [1] 1 info1w (by decide) (by decide) (by decide)
